import Mathlib

/-!
Verification of the xwax core: track ingestion/storage (track.c) and the
timecode pitch filter (pitch.c).

Machine integers are embedded as Nat with explicit truncation (mod 2^w)
at the single point where the C code narrows a value (the unsigned short
accumulator for the per-sample meter input).  The float state of the
pitch filter is idealised as exact rationals; the theorems about it are
algebraic statements about the update formulas, not about rounding.
Syscall outcomes (pipe, fcntl, vfork, malloc, read) are passed to the
embedded operations as explicit parameters, so each C control path is a
value of a total Lean function.
-/

/- ## Pitch filter (pitch.c) -/

/-- Filter gain ALPHA, from pitch.c: ALPHA = 1.0/512. -/
def ALPHA : ℚ := 1 / 512

/-- Filter gain BETA, from pitch.c: BETA = ALPHA/1024. -/
def BETA : ℚ := ALPHA / 1024

/-- State of the pitch filter: struct pitch_t with fields dt, x, v. -/
structure Pitch where
  dt : ℚ
  x : ℚ
  v : ℚ
deriving DecidableEq

/-- pitch_init from pitch.c: set dt, zero x and v. -/
def pitch_init (dt : ℚ) : Pitch :=
  { dt := dt, x := 0, v := 0 }

/-- pitch_dt_observation from pitch.c, translated line by line:
predicted_x = x + v*dt; predicted_v = v; residual_x = dx - predicted_x;
x = predicted_x + residual_x*ALPHA; v = predicted_v + residual_x*BETA/dt;
x -= dx. -/
def pitch_dt_observation (p : Pitch) (dx : ℚ) : Pitch :=
  let predicted_x := p.x + p.v * p.dt
  let predicted_v := p.v
  let residual_x := dx - predicted_x
  let x1 := predicted_x + residual_x * ALPHA
  let v1 := predicted_v + residual_x * BETA / p.dt
  { dt := p.dt, x := x1 - dx, v := v1 }

/-- C4: for every filter state with dt nonzero and every observation dx,
pitch_dt_observation updates the state exactly by predicted_x = x + v*dt,
residual = dx - predicted_x, new x = predicted_x + residual*(1/512) - dx,
new v = v + residual*((1/512)/1024)/dt, and leaves dt unchanged. -/
theorem pitch_observation_update (p : Pitch) (dx : ℚ) (_hdt : p.dt ≠ 0) :
    (pitch_dt_observation p dx).dt = p.dt ∧
    (pitch_dt_observation p dx).x
      = (p.x + p.v * p.dt) + (dx - (p.x + p.v * p.dt)) * (1 / 512) - dx ∧
    (pitch_dt_observation p dx).v
      = p.v + (dx - (p.x + p.v * p.dt)) * ((1 / 512) / 1024) / p.dt := by
  refine ⟨rfl, ?_, ?_⟩ <;> simp [pitch_dt_observation, ALPHA, BETA]

/-- Witness for C4 at the concrete state (dt, x, v) = (1, 0, 0), dx = 3. -/
theorem pitch_observation_update_witness :
    (pitch_dt_observation ⟨1, 0, 0⟩ 3).dt = (1 : ℚ) ∧
    (pitch_dt_observation ⟨1, 0, 0⟩ 3).x
      = ((0 : ℚ) + 0 * 1) + (3 - ((0 : ℚ) + 0 * 1)) * (1 / 512) - 3 ∧
    (pitch_dt_observation ⟨1, 0, 0⟩ 3).v
      = (0 : ℚ) + (3 - ((0 : ℚ) + 0 * 1)) * ((1 / 512) / 1024) / 1 :=
  pitch_observation_update ⟨1, 0, 0⟩ 3 (by norm_num)

/-- C9: for dt nonzero and a constant input c, the state (x, v) = (0, c/dt)
is a fixed point of the observation update with dx = c, and it is the only
fixed point (over exact arithmetic). -/
theorem pitch_constant_fixed_point (c dt : ℚ) (hdt : dt ≠ 0) :
    pitch_dt_observation ⟨dt, 0, c / dt⟩ c = ⟨dt, 0, c / dt⟩ ∧
    ∀ x v : ℚ, pitch_dt_observation ⟨dt, x, v⟩ c = ⟨dt, x, v⟩ →
      x = 0 ∧ v = c / dt := by
  constructor
  · simp only [pitch_dt_observation, Pitch.mk.injEq]
    refine ⟨trivial, ?_, ?_⟩
    · field_simp
    · field_simp
  · intro x v h
    simp only [pitch_dt_observation, Pitch.mk.injEq] at h
    obtain ⟨-, hx, hv⟩ := h
    have hres : c - (x + v * dt) = 0 := by
      have h1 : (c - (x + v * dt)) * BETA / dt = 0 := by linarith
      rcases div_eq_zero_iff.mp h1 with h2 | h2
      · rcases mul_eq_zero.mp h2 with h3 | h3
        · exact h3
        · exact absurd h3 (by norm_num [BETA, ALPHA])
      · exact absurd h2 hdt
    have hvdt : v * dt = c := by
      have := hx
      rw [hres] at this
      have hxx : x + v * dt - c = x := by linarith [this]
      linarith
    constructor
    · linarith [hres, hvdt]
    · field_simp
      linarith [hvdt]

/-- Witness for C9 at c = 2, dt = 1: the fixed-point equation holds there. -/
theorem pitch_constant_fixed_point_witness :
    pitch_dt_observation ⟨1, 0, 2 / 1⟩ 2 = ⟨1, 0, 2 / 1⟩ :=
  (pitch_constant_fixed_point 2 1 (by norm_num)).1

/- ## Track lifecycle (track.c): start_import, stop_import, abort_import,
track_import, track_clear.

The track state holds the fields of struct track_t that these operations
touch.  pid is an Int because the C code stores the raw vfork() return
value (including -1) into tr->pid.  fdOpen records whether the read end
of the pipe is an open descriptor owned by the track; allocated records
how many heap blocks are currently allocated (tr->block[0 .. blocks) in
the C code), while blocks is the value of the counter field tr->blocks
itself.  -/

/-- Modelled from the spec: TRACK_RATE is the system sample rate constant
from the track.h header, which is not part of the sources; the spec gives
44100 as a representative value (§6). -/
def TRACK_RATE : Nat := 44100

/-- Mutable fields of struct track_t used by the lifecycle operations. -/
structure Track where
  pid : Int
  fd : Nat
  fdOpen : Bool
  blocks : Nat
  allocated : Nat
  bytes : Nat
  length : Nat
  ppm : Nat
  overview : Nat
  rate : Nat
deriving DecidableEq

/-- start_import from track.c.  The outcomes of the syscalls are inputs:
pipeOk and fcntlOk say whether pipe() and fcntl() succeed, vforkRes is
the value vfork() returns in the parent (-1 on failure, the child pid
on success), newFd is the read end pstdout[0].  The function returns the
track state visible to the parent afterwards together with the C return
value.  Note the C code executes tr->pid = vfork() before testing the
result, so a failed vfork stores -1 in the pid field. -/
def start_import (tr : Track) (pipeOk fcntlOk : Bool) (vforkRes : Int)
    (newFd : Nat) : Track × Int :=
  if pipeOk = false then (tr, -1)
  else if fcntlOk = false then (tr, -1)
  else
    let tr1 := { tr with pid := vforkRes }
    if vforkRes = -1 then (tr1, -1)
    else
      ({ tr1 with
          fd := newFd,
          fdOpen := true,
          bytes := 0,
          length := 0,
          ppm := 0,
          overview := 0,
          rate := TRACK_RATE }, 0)

/-- stop_import from track.c: close the descriptor, waitpid, set pid = 0. -/
def stop_import (tr : Track) : Track :=
  { tr with fdOpen := false, pid := 0 }

/-- abort_import from track.c: kill(pid, SIGTERM) (no effect on the track
fields), then stop_import. -/
def abort_import (tr : Track) : Track :=
  stop_import tr

/-- track_import from track.c: abort any running import, then start_import. -/
def track_import (tr : Track) (pipeOk fcntlOk : Bool) (vforkRes : Int)
    (newFd : Nat) : Track × Int :=
  let tr0 := if tr.pid = 0 then tr else abort_import tr
  start_import tr0 pipeOk fcntlOk vforkRes newFd

/-- track_clear from track.c: abort_import if pid is nonzero, then free
every allocated block.  The counter field tr->blocks is not written. -/
def track_clear (tr : Track) : Track :=
  let tr1 := if tr.pid = 0 then tr else abort_import tr
  { tr1 with allocated := 0 }

/-- An idle track as produced by track_init (pid = 0, no blocks). -/
def idleTrack : Track :=
  ⟨0, 0, false, 0, 0, 0, 0, 0, 0, TRACK_RATE⟩

/-- C1 (code bug): on an idle track, when pipe() and fcntl() succeed but
vfork() fails (returns -1), track_import returns -1 as specified, but the
failed vfork result has already been stored in tr->pid, so the resulting
track has pid = -1 and no longer satisfies the idle test pid == 0 used by
track_pollfd, track_handle, track_clear and track_import.  This
contradicts the documented behaviour that on failure no partial state is
visible and the track remains idle. -/
theorem track_import_vfork_partial_state :
    (track_import idleTrack true true (-1) 9).2 = -1 ∧
    (track_import idleTrack true true (-1) 9).1.pid = -1 ∧
    (track_import idleTrack true true (-1) 9).1.pid ≠ 0 := by
  decide

/-- A track holding one allocated block, idle, descriptor closed. -/
def trackOneBlock : Track :=
  ⟨0, 0, false, 1, 1, 4096, 1024, 0, 0, TRACK_RATE⟩

/-- C6 counterexample: track_clear frees the allocated blocks but does not
reset the counter field tr->blocks, so after clearing a track that held
one block the block list length reads 1, not 0 as the claim states. -/
theorem track_clear_blocks_counterexample :
    (track_clear trackOneBlock).blocks = 1 ∧
    (track_clear trackOneBlock).blocks ≠ 0 := by
  decide

/-- C6 as amended: after track_clear the track owns no resources: every
allocated block is freed, the child handle is cleared (pid = 0) and the
pipe descriptor is closed; but the blocks counter field keeps its old
value.  The hypothesis is the track invariant that an idle track has no
open descriptor. -/
theorem track_clear_resources (tr : Track)
    (h : tr.pid = 0 → tr.fdOpen = false) :
    (track_clear tr).allocated = 0 ∧
    (track_clear tr).pid = 0 ∧
    (track_clear tr).fdOpen = false ∧
    (track_clear tr).blocks = tr.blocks := by
  by_cases hp : tr.pid = 0
  · simp [track_clear, hp, h hp]
  · simp [track_clear, hp, abort_import, stop_import]

/-- Witness for C6 (amended) at the concrete one-block idle track. -/
theorem track_clear_resources_witness :
    (track_clear trackOneBlock).allocated = 0 ∧
    (track_clear trackOneBlock).pid = 0 ∧
    (track_clear trackOneBlock).fdOpen = false ∧
    (track_clear trackOneBlock).blocks = trackOneBlock.blocks :=
  track_clear_resources trackOneBlock (fun _ => rfl)

/- ## Ingest and metering (track.c): commit_pcm_samples, commit_bytes,
read_from_pipe, track_handle.

The PCM store is embedded as the flat byte stream written through the
writable regions.  This is faithful to the source: access_pcm_data hands
out the window at byte offset tr->bytes inside block tr->bytes /
TRACK_BLOCK_PCM_BYTES, so the blocks hold exactly the consecutive bytes
of the stream in order, and commit_pcm_samples reads sample number
tr->length of that stream (block tr->length / TRACK_BLOCK_SAMPLES at
in-block offset tr->length mod TRACK_BLOCK_SAMPLES).  The meter arrays
are embedded as the per-sample traces of stored bytes: sample i writes
block.ppm at in-block bucket fill / TRACK_PPM_RES, i.e. global bucket
i / TRACK_PPM_RES (the spec requires TRACK_PPM_RES to divide
TRACK_BLOCK_SAMPLES), so the array contents are the last trace entry of
each bucket and trace equality implies array equality. -/

/-- Decode a signed 16-bit little-endian value from two bytes, as the C
code does by reading a signed short from the buffer filled by read(). -/
def s16 (lo hi : Nat) : Int :=
  let u := lo % 256 + 256 * (hi % 256)
  if u < 32768 then (u : Int) else (u : Int) - 65536

/-- Stereo sample number i of the byte stream d: pcm[0] and pcm[1] at
byte offset 4 * i (SAMPLE = sizeof(signed short) * TRACK_CHANNELS = 4). -/
def decodeSample (d : List Nat) (i : Nat) : Int × Int :=
  (s16 (d.getD (4 * i) 0) (d.getD (4 * i + 1) 0),
   s16 (d.getD (4 * i + 2) 0) (d.getD (4 * i + 3) 0))

/-- Meter state of the track: tr->length, tr->ppm, tr->overview, plus the
byte traces written to the block ppm and overview arrays (one entry per
committed sample, in commit order). -/
structure Meters where
  length : Nat
  ppm : Nat
  overview : Nat
  ppmTrace : List Nat
  overviewTrace : List Nat
deriving DecidableEq

/-- Meter input for one stereo sample, from commit_pcm_samples:
unsigned short v = abs(pcm[0]) + abs(pcm[1]).  The sum is truncated to
the unsigned short domain, hence the mod 2^16. -/
def vOf (L R : Int) : Nat := (L.natAbs + R.natAbs) % 65536

/-- Fast PPM update from commit_pcm_samples: if v > ppm then
ppm += (v - ppm) >> 3 else ppm -= (ppm - v) >> 9. -/
def ppmStep (acc v : Nat) : Nat :=
  if v > acc then acc + (v - acc) / 8 else acc - (acc - v) / 512

/-- Slow overview update from commit_pcm_samples, on w = v << 16: if
w > overview then overview += (w - overview) >> 8 else
overview -= (overview - w) >> 17. -/
def overviewStep (acc w : Nat) : Nat :=
  if w > acc then acc + (w - acc) / 256 else acc - (acc - w) / 131072

/-- One iteration of the metering loop of commit_pcm_samples: meter the
sample at index length of the stream d, store ppm >> 8 and
overview >> 24 into the meter arrays, and advance length. -/
def commitOne (d : List Nat) (m : Meters) : Meters :=
  let LR := decodeSample d m.length
  let v := vOf LR.1 LR.2
  let p := ppmStep m.ppm v
  let o := overviewStep m.overview (v * 65536)
  { length := m.length + 1,
    ppm := p,
    overview := o,
    ppmTrace := m.ppmTrace ++ [p / 256],
    overviewTrace := m.overviewTrace ++ [o / 16777216] }

/-- commit_pcm_samples from track.c: run the metering loop for the given
number of newly completed samples of the stream d. -/
def commitSamples (d : List Nat) : Nat → Meters → Meters
  | 0, m => m
  | n + 1, m => commitSamples d n (commitOne d m)

/-- Track ingest state: the byte stream written so far (tr->bytes is its
length) and the meter state. -/
structure IngestState where
  data : List Nat
  meters : Meters
deriving DecidableEq

/-- commit_bytes from track.c, combined with the write that placed the
chunk in the region returned by access_pcm_data: tr->bytes += len, then
commit_pcm_samples(tr, tr->bytes / SAMPLE - tr->length). -/
def commitBytes (st : IngestState) (chunk : List Nat) : IngestState :=
  let d := st.data ++ chunk
  { data := d,
    meters := commitSamples d (d.length / 4 - st.meters.length) st.meters }

/-- Track ingest state right after a successful start_import:
bytes = 0, length = 0, ppm = 0, overview = 0, nothing written. -/
def ingestInit : IngestState :=
  ⟨[], ⟨0, 0, 0, [], []⟩⟩

/-- State invariant maintained by the ingest: tr->length counts exactly
the whole samples of the written byte stream. -/
def ingestInv (st : IngestState) : Prop :=
  st.meters.length = st.data.length / 4

theorem commitOne_length (d : List Nat) (m : Meters) :
    (commitOne d m).length = m.length + 1 := rfl

theorem commitSamples_length (d : List Nat) (n : Nat) (m : Meters) :
    (commitSamples d n m).length = m.length + n := by
  induction n generalizing m with
  | zero => rfl
  | succ k ih =>
    show (commitSamples d k (commitOne d m)).length = m.length + (k + 1)
    rw [ih, commitOne_length]
    omega

theorem commitSamples_add (d : List Nat) (a b : Nat) (m : Meters) :
    commitSamples d (a + b) m = commitSamples d b (commitSamples d a m) := by
  induction a generalizing m with
  | zero => rw [Nat.zero_add]; rfl
  | succ k ih =>
    have h1 : k + 1 + b = (k + b) + 1 := by omega
    rw [h1]
    show commitSamples d (k + b) (commitOne d m)
        = commitSamples d b (commitSamples d k (commitOne d m))
    exact ih (commitOne d m)

theorem commitOne_append (d e : List Nat) (m : Meters)
    (h : 4 * m.length + 4 ≤ d.length) :
    commitOne (d ++ e) m = commitOne d m := by
  unfold commitOne decodeSample
  rw [List.getD_append _ _ _ _ (by omega), List.getD_append _ _ _ _ (by omega),
    List.getD_append _ _ _ _ (by omega), List.getD_append _ _ _ _ (by omega)]

theorem commitSamples_append (d e : List Nat) (n : Nat) (m : Meters)
    (h : 4 * (m.length + n) ≤ d.length) :
    commitSamples (d ++ e) n m = commitSamples d n m := by
  induction n generalizing m with
  | zero => rfl
  | succ k ih =>
    show commitSamples (d ++ e) k (commitOne (d ++ e) m)
        = commitSamples d k (commitOne d m)
    rw [commitOne_append d e m (by omega)]
    exact ih (commitOne d m) (by rw [commitOne_length]; omega)

theorem commitBytes_inv (st : IngestState) (chunk : List Nat)
    (h : ingestInv st) : ingestInv (commitBytes st chunk) := by
  unfold ingestInv at h ⊢
  show (commitSamples (st.data ++ chunk)
      ((st.data ++ chunk).length / 4 - st.meters.length) st.meters).length
    = (st.data ++ chunk).length / 4
  rw [commitSamples_length]
  have h1 : st.data.length ≤ (st.data ++ chunk).length := by
    simp only [List.length_append]; omega
  have h2 : st.data.length / 4 ≤ (st.data ++ chunk).length / 4 :=
    Nat.div_le_div_right h1
  omega

theorem commitBytes_mono (st : IngestState) (chunk : List Nat) :
    st.meters.length ≤ (commitBytes st chunk).meters.length := by
  unfold commitBytes
  rw [commitSamples_length]
  omega

/-- Chunk-append law of the ingest: committing chunk a and then chunk b
is the same as committing their concatenation at once. -/
theorem commitBytes_append (st : IngestState) (a b : List Nat)
    (h : ingestInv st) :
    commitBytes (commitBytes st a) b = commitBytes st (a ++ b) := by
  unfold ingestInv at h
  show commitBytes
      ⟨st.data ++ a,
        commitSamples (st.data ++ a)
          ((st.data ++ a).length / 4 - st.meters.length) st.meters⟩ b
    = commitBytes st (a ++ b)
  unfold commitBytes
  have hA : st.data.length / 4 ≤ (st.data ++ a).length / 4 :=
    Nat.div_le_div_right (by simp only [List.length_append]; omega)
  have hB : (st.data ++ a).length / 4 ≤ ((st.data ++ a) ++ b).length / 4 :=
    Nat.div_le_div_right (by simp only [List.length_append]; omega)
  have hassoc : (st.data ++ a) ++ b = st.data ++ (a ++ b) :=
    List.append_assoc st.data a b
  have hlen1 : (commitSamples (st.data ++ a)
      ((st.data ++ a).length / 4 - st.meters.length) st.meters).length
      = (st.data ++ a).length / 4 := by
    rw [commitSamples_length, h]
    omega
  simp only [hlen1]
  have hsplit : ((st.data ++ a) ++ b).length / 4 - st.meters.length
      = ((st.data ++ a).length / 4 - st.meters.length)
        + (((st.data ++ a) ++ b).length / 4 - (st.data ++ a).length / 4) := by
    rw [h]
    omega
  have hpref : commitSamples ((st.data ++ a) ++ b)
      ((st.data ++ a).length / 4 - st.meters.length) st.meters
      = commitSamples (st.data ++ a)
        ((st.data ++ a).length / 4 - st.meters.length) st.meters := by
    apply commitSamples_append
    have h4 : 4 * ((st.data ++ a).length / 4) ≤ (st.data ++ a).length :=
      Nat.mul_div_le (st.data ++ a).length 4
    rw [h]
    omega
  simp only [IngestState.mk.injEq]
  constructor
  · rw [hassoc]
  · rw [← hassoc, hsplit, commitSamples_add, hpref]

theorem commitBytes_nil (st : IngestState) (h : ingestInv st) :
    commitBytes st [] = st := by
  unfold ingestInv at h
  unfold commitBytes
  simp only [List.append_nil]
  rw [h, Nat.sub_self]
  rfl

theorem foldl_commitBytes (st : IngestState) (chunks : List (List Nat))
    (h : ingestInv st) :
    List.foldl commitBytes st chunks = commitBytes st chunks.flatten := by
  induction chunks generalizing st with
  | nil =>
    show st = commitBytes st []
    rw [commitBytes_nil st h]
  | cons c cs ih =>
    show List.foldl commitBytes (commitBytes st c) cs
        = commitBytes st (c :: cs).flatten
    rw [ih (commitBytes st c) (commitBytes_inv st c h),
      commitBytes_append st c cs.flatten h]
    rfl

theorem foldl_commitBytes_inv (st : IngestState) (chunks : List (List Nat))
    (h : ingestInv st) : ingestInv (List.foldl commitBytes st chunks) := by
  induction chunks generalizing st with
  | nil => exact h
  | cons c cs ih => exact ih (commitBytes st c) (commitBytes_inv st c h)

theorem foldl_commitBytes_mono (st : IngestState) (chunks : List (List Nat)) :
    st.meters.length ≤ (List.foldl commitBytes st chunks).meters.length := by
  induction chunks generalizing st with
  | nil => exact Nat.le_refl _
  | cons c cs ih =>
    exact Nat.le_trans (commitBytes_mono st c) (ih (commitBytes st c))

/-- C3: the ingest is a homomorphism over byte-stream concatenation.
Feeding any chopping of a PCM byte stream through the
writable-region/commit_bytes cycle, one chunk at a time, produces the
same ingest state as feeding the whole stream in one pass: same stored
PCM bytes, same committed sample count, same accumulator values and the
same sequences of ppm and overview meter bytes. -/
theorem ingest_chunking_homomorphism (chunks : List (List Nat)) :
    List.foldl commitBytes ingestInit chunks
      = commitBytes ingestInit chunks.flatten :=
  foldl_commitBytes ingestInit chunks rfl

/-- C2: for every ingest state satisfying the track invariant, after any
sequence of commit_bytes calls the invariant
samples_committed * 4 ≤ bytes_written < samples_committed * 4 + 4 holds,
and samples_committed never decreases. -/
theorem commit_bytes_invariant (st : IngestState) (chunks : List (List Nat))
    (h : ingestInv st) :
    4 * (List.foldl commitBytes st chunks).meters.length
      ≤ (List.foldl commitBytes st chunks).data.length ∧
    (List.foldl commitBytes st chunks).data.length
      < 4 * (List.foldl commitBytes st chunks).meters.length + 4 ∧
    st.meters.length ≤ (List.foldl commitBytes st chunks).meters.length := by
  have hinv : ingestInv (List.foldl commitBytes st chunks) :=
    foldl_commitBytes_inv st chunks h
  unfold ingestInv at hinv
  refine ⟨?_, ?_, foldl_commitBytes_mono st chunks⟩
  · rw [hinv]
    have := Nat.div_add_mod (List.foldl commitBytes st chunks).data.length 4
    omega
  · rw [hinv]
    have h1 := Nat.div_add_mod (List.foldl commitBytes st chunks).data.length 4
    have h2 : (List.foldl commitBytes st chunks).data.length % 4 < 4 :=
      Nat.mod_lt _ (by omega)
    omega

/-- Witness for C2 on the fresh ingest state, committing a whole sample
followed by a lone byte. -/
theorem commit_bytes_invariant_witness :
    4 * (List.foldl commitBytes ingestInit [[1, 2, 3, 4], [5]]).meters.length
      ≤ (List.foldl commitBytes ingestInit [[1, 2, 3, 4], [5]]).data.length ∧
    (List.foldl commitBytes ingestInit [[1, 2, 3, 4], [5]]).data.length
      < 4 * (List.foldl commitBytes ingestInit
          [[1, 2, 3, 4], [5]]).meters.length + 4 ∧
    ingestInit.meters.length
      ≤ (List.foldl commitBytes ingestInit [[1, 2, 3, 4], [5]]).meters.length :=
  commit_bytes_invariant ingestInit [[1, 2, 3, 4], [5]] rfl

/-- C5 counterexample: the meter input v is computed in an unsigned short,
so for the full-scale sample L = R = -32768 (bytes 00 80 00 80), whose
exact sum of magnitudes is 65536, the code computes v = 0 and the PPM
accumulator stays at 0 instead of attacking to (65536 - 0) >> 3 = 8192 as
it would in a 17-bit-wide domain. -/
theorem ppm_v_truncation_counterexample :
    decodeSample [0, 128, 0, 128] 0 = (-32768, -32768) ∧
    Int.natAbs (-32768) + Int.natAbs (-32768) = 65536 ∧
    vOf (-32768) (-32768) = 0 ∧
    (commitOne [0, 128, 0, 128] ⟨0, 0, 0, [], []⟩).ppm = 0 ∧
    (0 : Nat) + (65536 - 0) / 8 = 8192 := by
  decide

/-- C5 as amended: for every newly committed stereo sample the metering
computes v = (abs L + abs R) mod 2^16 in the unsigned short domain (this
equals abs L + abs R exactly whenever that sum is below 65536, i.e. for
every sample except L = R = -32768), then applies the fast attack
ppm += (v - ppm) >> 3 when v > ppm and the slow release
ppm -= (ppm - v) >> 9 otherwise, and stores ppm >> 8 as the meter byte. -/
theorem ppm_meter_update (d : List Nat) (m : Meters) (L R : Int)
    (h : decodeSample d m.length = (L, R)) :
    (commitOne d m).ppm
      = (if (L.natAbs + R.natAbs) % 65536 > m.ppm
         then m.ppm + ((L.natAbs + R.natAbs) % 65536 - m.ppm) / 8
         else m.ppm - (m.ppm - (L.natAbs + R.natAbs) % 65536) / 512) ∧
    (L.natAbs + R.natAbs < 65536
      → (L.natAbs + R.natAbs) % 65536 = L.natAbs + R.natAbs) ∧
    (commitOne d m).ppmTrace = m.ppmTrace ++ [(commitOne d m).ppm / 256] := by
  refine ⟨?_, fun hlt => Nat.mod_eq_of_lt hlt, ?_⟩
  · show (commitOne d m).ppm = _
    unfold commitOne
    rw [h]
    rfl
  · show (commitOne d m).ppmTrace = _
    unfold commitOne
    rw [h]

/-- Witness for C5 (amended) at the fresh meter state and the sample
(L, R) = (10, 20) encoded as bytes 0a 00 14 00. -/
theorem ppm_meter_update_witness :
    (commitOne [10, 0, 20, 0] ⟨0, 0, 0, [], []⟩).ppm
      = (if ((10 : Int).natAbs + (20 : Int).natAbs) % 65536 > 0
         then 0 + (((10 : Int).natAbs + (20 : Int).natAbs) % 65536 - 0) / 8
         else 0 - (0 - ((10 : Int).natAbs + (20 : Int).natAbs) % 65536) / 512) ∧
    ((10 : Int).natAbs + (20 : Int).natAbs < 65536
      → ((10 : Int).natAbs + (20 : Int).natAbs) % 65536
        = (10 : Int).natAbs + (20 : Int).natAbs) ∧
    (commitOne [10, 0, 20, 0] ⟨0, 0, 0, [], []⟩).ppmTrace
      = [] ++ [(commitOne [10, 0, 20, 0] ⟨0, 0, 0, [], []⟩).ppm / 256] :=
  ppm_meter_update [10, 0, 20, 0] ⟨0, 0, 0, [], []⟩ 10 20 (by decide)

/- ## Ingest pump (track.c): read_from_pipe and track_handle.

Each iteration of the read_from_pipe loop first requests a writable
region (which can fail when allocation is needed and impossible) and
then performs one non-blocking read.  The outcome of one iteration is an
input event; the pump consumes a list of such events.  The C return
values are kept: 0 means Pending (EAGAIN), 1 means Done (EOF), -1 means
Fatal (region failure or read error). -/

/-- Outcome of one iteration of the read loop: the region request fails;
or the read reports EAGAIN, another error, end of file, or delivers a
chunk of bytes. -/
inductive PumpEvent where
  | regionFail : PumpEvent
  | readEagain : PumpEvent
  | readError : PumpEvent
  | readEof : PumpEvent
  | readData : List Nat → PumpEvent
deriving DecidableEq

/-- read_from_pipe from track.c: loop; on a region failure return -1; on
EAGAIN return 0; on another read error return -1; on a zero-byte read
return 1 (EOF); on a read of a chunk, commit it and continue.  The
result is none only when the event list runs out with the loop still
going. -/
def read_from_pipe (st : IngestState) :
    List PumpEvent → IngestState × Option Int
  | [] => (st, none)
  | PumpEvent.regionFail :: _ => (st, some (-1))
  | PumpEvent.readEagain :: _ => (st, some 0)
  | PumpEvent.readError :: _ => (st, some (-1))
  | PumpEvent.readEof :: _ => (st, some 1)
  | PumpEvent.readData chunk :: rest =>
      read_from_pipe (commitBytes st chunk) rest

/-- track_handle from track.c: if no poll entry is registered or it
reports no ready events, do nothing; otherwise, under the lock, if the
track is importing (pid nonzero) run the pump and, when it returns a
nonzero result, run stop_import.  The Bool of the result records whether
stop_import was invoked. -/
def track_handle (registered revents : Bool) (pid : Int)
    (st : IngestState) (events : List PumpEvent) : IngestState × Bool :=
  if registered = false ∨ revents = false then (st, false)
  else if pid ≠ 0 then
    match read_from_pipe st events with
    | (st1, some r) => if r ≠ 0 then (st1, true) else (st1, false)
    | (st1, none) => (st1, false)
  else (st, false)

theorem read_from_pipe_range (st : IngestState) (events : List PumpEvent)
    (st1 : IngestState) (r : Int)
    (h : read_from_pipe st events = (st1, some r)) :
    r = -1 ∨ r = 0 ∨ r = 1 := by
  induction events generalizing st with
  | nil => exact absurd (congrArg Prod.snd h) (by simp [read_from_pipe])
  | cons e rest ih =>
    cases e with
    | regionFail =>
      simp only [read_from_pipe, Prod.mk.injEq, Option.some.injEq] at h
      left
      omega
    | readEagain =>
      simp only [read_from_pipe, Prod.mk.injEq, Option.some.injEq] at h
      right
      left
      omega
    | readError =>
      simp only [read_from_pipe, Prod.mk.injEq, Option.some.injEq] at h
      left
      omega
    | readEof =>
      simp only [read_from_pipe, Prod.mk.injEq, Option.some.injEq] at h
      right
      right
      omega
    | readData chunk => exact ih (commitBytes st chunk) h

/-- C8: behaviour of the ingest pump and its driver.  A read that fails
with EAGAIN makes the pump return Pending (0) with the ingest state
untouched by that read; a zero-byte read returns Done (1), again leaving
the state untouched; a failed region request or any other read error
returns Fatal (-1); a read of a chunk commits it and loops.  When the
track is importing, track_handle runs stop_import exactly when the pump
returns Done or Fatal, and never on Pending. -/
theorem pump_handle_spec (st st1 : IngestState) (events rest : List PumpEvent)
    (chunk : List Nat) (pid : Int) (r : Int)
    (hpid : pid ≠ 0)
    (hrun : read_from_pipe st events = (st1, some r)) :
    read_from_pipe st (PumpEvent.readEagain :: rest) = (st, some 0) ∧
    read_from_pipe st (PumpEvent.readEof :: rest) = (st, some 1) ∧
    read_from_pipe st (PumpEvent.readError :: rest) = (st, some (-1)) ∧
    read_from_pipe st (PumpEvent.regionFail :: rest) = (st, some (-1)) ∧
    read_from_pipe st (PumpEvent.readData chunk :: rest)
      = read_from_pipe (commitBytes st chunk) rest ∧
    (track_handle true true pid st events).1 = st1 ∧
    ((track_handle true true pid st events).2 = true ↔ (r = 1 ∨ r = -1)) ∧
    ((track_handle true true pid st events).2 = false ↔ r = 0) := by
  have hh : track_handle true true pid st events
      = if r ≠ 0 then (st1, true) else (st1, false) := by
    unfold track_handle
    rw [if_neg (by simp), if_pos hpid, hrun]
  have hr := read_from_pipe_range st events st1 r hrun
  refine ⟨rfl, rfl, rfl, rfl, rfl, ?_, ?_, ?_⟩
  · rw [hh]
    by_cases h0 : r = 0 <;> simp [h0]
  · rw [hh]
    by_cases h0 : r = 0
    · simp [h0]
    · simp only [h0, if_true, ne_eq, not_false_eq_true, if_pos]
      simp [h0]
      omega
  · rw [hh]
    by_cases h0 : r = 0 <;> simp [h0]

/-- Witness for C8 on the fresh ingest state: the importer delivers one
sample and then reports end of file; the pump returns Done and
track_handle invokes stop_import. -/
theorem pump_handle_spec_witness :
    read_from_pipe (commitBytes ingestInit [1, 2, 3, 4])
        (PumpEvent.readEagain :: []) = (commitBytes ingestInit [1, 2, 3, 4], some 0) ∧
    read_from_pipe (commitBytes ingestInit [1, 2, 3, 4])
        (PumpEvent.readEof :: []) = (commitBytes ingestInit [1, 2, 3, 4], some 1) ∧
    read_from_pipe (commitBytes ingestInit [1, 2, 3, 4])
        (PumpEvent.readError :: []) = (commitBytes ingestInit [1, 2, 3, 4], some (-1)) ∧
    read_from_pipe (commitBytes ingestInit [1, 2, 3, 4])
        (PumpEvent.regionFail :: []) = (commitBytes ingestInit [1, 2, 3, 4], some (-1)) ∧
    read_from_pipe (commitBytes ingestInit [1, 2, 3, 4])
        (PumpEvent.readData [9] :: [])
      = read_from_pipe (commitBytes (commitBytes ingestInit [1, 2, 3, 4]) [9]) [] ∧
    (track_handle true true 42 (commitBytes ingestInit [1, 2, 3, 4])
        [PumpEvent.readEof]).1 = commitBytes ingestInit [1, 2, 3, 4] ∧
    ((track_handle true true 42 (commitBytes ingestInit [1, 2, 3, 4])
        [PumpEvent.readEof]).2 = true ↔ ((1 : Int) = 1 ∨ (1 : Int) = -1)) ∧
    ((track_handle true true 42 (commitBytes ingestInit [1, 2, 3, 4])
        [PumpEvent.readEof]).2 = false ↔ (1 : Int) = 0) :=
  pump_handle_spec (commitBytes ingestInit [1, 2, 3, 4])
    (commitBytes ingestInit [1, 2, 3, 4]) [PumpEvent.readEof] [] [9] 42 1
    (by decide) rfl

/- ## Block store (track.c): more_space and access_pcm_data.

TRACK_BLOCK_SAMPLES (BS) and TRACK_MAX_BLOCKS (MAX) are compile-time
constants from the track.h header, which is not among the sources; they
are kept as parameters, so the theorems hold for every instantiation.
SAMPLE = sizeof(signed short) * TRACK_CHANNELS = 4 bytes and
TRACK_BLOCK_PCM_BYTES = BS * 4. -/

/-- more_space from track.c: refuse when tr->blocks has reached
TRACK_MAX_BLOCKS, fail when malloc fails, otherwise append a block and
return the new block count. -/
def more_space (MAX blocks : Nat) (mallocOk : Bool) : Option Nat :=
  if MAX ≤ blocks then none
  else if mallocOk then some (blocks + 1) else none

/-- access_pcm_data from track.c: block = tr->bytes /
TRACK_BLOCK_PCM_BYTES; if that equals tr->blocks, allocate via
more_space (propagating failure as NULL, here none); fill = tr->bytes
mod TRACK_BLOCK_PCM_BYTES; the window is block[block]->pcm + fill with
length TRACK_BLOCK_PCM_BYTES - fill.  The result carries (block index,
fill, window length, block count afterwards). -/
def access_pcm_data (BS MAX bytes blocks : Nat) (mallocOk : Bool) :
    Option (Nat × Nat × Nat × Nat) :=
  let BPB := BS * 4
  let blockIdx := bytes / BPB
  let fill := bytes % BPB
  if blockIdx = blocks then
    match more_space MAX blocks mallocOk with
    | none => none
    | some blocks2 => some (blockIdx, fill, BPB - fill, blocks2)
  else
    some (blockIdx, fill, BPB - fill, blocks)

/-- Reference behaviour of the writable-region operation, written from
the spec (§4.1): a new block is allocated exactly when the byte cursor
sits at the end of the last allocated block; the request fails exactly
when allocation is needed and either the block count has reached
TRACK_MAX_BLOCKS or malloc fails; otherwise the window starts at the
in-block cursor and runs to the end of that block. -/
def writable_region_spec (BS MAX bytes blocks : Nat) (mallocOk : Bool) :
    Option (Nat × Nat × Nat × Nat) :=
  if bytes = blocks * (BS * 4) then
    if blocks = MAX ∨ mallocOk = false then none
    else some (blocks, 0, BS * 4, blocks + 1)
  else
    some (bytes / (BS * 4), bytes % (BS * 4),
      BS * 4 - bytes % (BS * 4), blocks)

/-- C7: under the track invariants bytes_written ≤ blocks * block_bytes
and blocks ≤ TRACK_MAX_BLOCKS (with TRACK_BLOCK_SAMPLES positive),
access_pcm_data behaves exactly as the specified writable-region
operation: it allocates a new block precisely when the cursor equals the
end of the last block, fails precisely when allocation is needed and
either blocks = TRACK_MAX_BLOCKS or malloc fails, and otherwise returns
the window of exactly BS*4 - bytes mod BS*4 bytes lying inside one
block from the in-block cursor to the block end. -/
theorem access_pcm_data_spec (BS MAX bytes blocks : Nat) (mallocOk : Bool)
    (hBS : 0 < BS) (hbytes : bytes ≤ blocks * (BS * 4)) (hmax : blocks ≤ MAX) :
    access_pcm_data BS MAX bytes blocks mallocOk
      = writable_region_spec BS MAX bytes blocks mallocOk := by
  have hBPB : 0 < BS * 4 := by omega
  have hiff : bytes / (BS * 4) = blocks ↔ bytes = blocks * (BS * 4) := by
    constructor
    · intro hq
      have h1 : blocks * (BS * 4) ≤ bytes := by
        rw [← hq]
        exact Nat.div_mul_le_self bytes (BS * 4)
      omega
    · intro hq
      rw [hq]
      exact Nat.mul_div_cancel blocks hBPB
  unfold access_pcm_data writable_region_spec more_space
  by_cases hb : bytes = blocks * (BS * 4)
  · have hdiv : bytes / (BS * 4) = blocks := hiff.mpr hb
    have hmod : bytes % (BS * 4) = 0 := by
      rw [hb]
      exact Nat.mul_mod_left blocks (BS * 4)
    rw [if_pos hdiv, if_pos hb]
    by_cases hm : MAX ≤ blocks
    · have hMeq : blocks = MAX := by omega
      rw [if_pos hm, if_pos (Or.inl hMeq)]
    · have hMne : ¬ blocks = MAX := by omega
      rw [if_neg hm]
      cases mallocOk with
      | false =>
        rw [if_neg (by simp), if_pos (Or.inr rfl)]
      | true =>
        rw [if_pos rfl, if_neg (by simp [hMne])]
        rw [hdiv, hmod, Nat.sub_zero]
  · have hdiv : ¬ bytes / (BS * 4) = blocks := fun hq => hb (hiff.mp hq)
    rw [if_neg hdiv, if_neg hb]

/-- Witness for C7 on a fresh track (no bytes, no blocks, malloc
succeeding): the first region request allocates block 0 and returns the
whole block as the window. -/
theorem access_pcm_data_spec_witness :
    access_pcm_data 2 3 0 0 true = writable_region_spec 2 3 0 0 true :=
  access_pcm_data_spec 2 3 0 0 true (by decide) (by decide) (by decide)

/- ## Bound on the metering loop of commit_pcm_samples (track.c).

commit_pcm_samples asserts samples <= TRACK_BLOCK_SAMPLES - fill with
fill = tr->length mod TRACK_BLOCK_SAMPLES, and commit_bytes passes
samples = tr->bytes / SAMPLE - tr->length after tr->bytes += n. -/

/-- Window length returned by access_pcm_data for byte cursor b:
TRACK_BLOCK_PCM_BYTES - b mod TRACK_BLOCK_PCM_BYTES. -/
def accessLen (BS b : Nat) : Nat := BS * 4 - b % (BS * 4)

/-- Sample count passed by commit_bytes to commit_pcm_samples after
advancing the byte count by n: (b + n) / SAMPLE - length. -/
def commitSampleCount (b length n : Nat) : Nat := (b + n) / 4 - length

/-- In-block write cursor of commit_pcm_samples:
fill = length mod TRACK_BLOCK_SAMPLES. -/
def commitFill (BS length : Nat) : Nat := length % BS

/-- C10: whenever n is at most the capacity returned by the most recent
writable-region call and the track invariant length = bytes / 4 held at
that call, the newly completed samples stay inside one block: the count
passed to commit_pcm_samples satisfies the asserted bound
samples ≤ TRACK_BLOCK_SAMPLES - fill, and the in-block index fill +
samples never exceeds TRACK_BLOCK_SAMPLES, so the assertion cannot
fire. -/
theorem commit_assert_unreachable (BS b length n : Nat)
    (hBS : 0 < BS) (hlen : length = b / 4) (hn : n ≤ accessLen BS b) :
    commitSampleCount b length n ≤ BS - commitFill BS length ∧
    commitFill BS length + commitSampleCount b length n ≤ BS := by
  unfold accessLen at hn
  unfold commitSampleCount commitFill
  have hBPB : 0 < BS * 4 := by omega
  obtain ⟨q, r, hb, hrlt, hn2⟩ :
      ∃ q r, b = BS * 4 * q + r ∧ r < BS * 4 ∧ n ≤ BS * 4 - r :=
    ⟨b / (BS * 4), b % (BS * 4), (Nat.div_add_mod b (BS * 4)).symm,
      Nat.mod_lt b hBPB, hn⟩
  subst hb
  have hb4 : (BS * 4 * q + r) / 4 = BS * q + r / 4 := by
    have h1 : BS * 4 * q + r = 4 * (BS * q) + r := by ring
    rw [h1, Nat.mul_add_div (by omega)]
  have hrlt4 : r / 4 < BS := by
    rw [Nat.div_lt_iff_lt_mul (show (0 : Nat) < 4 by omega)]
    exact hrlt
  have hmod : (BS * q + r / 4) % BS = r / 4 := by
    rw [Nat.mul_add_mod, Nat.mod_eq_of_lt hrlt4]
  have hup : BS * 4 * q + r + n ≤ BS * 4 * q + BS * 4 := by omega
  have hup4 : (BS * 4 * q + r + n) / 4 ≤ (BS * 4 * q + BS * 4) / 4 :=
    Nat.div_le_div_right hup
  have hfact : (BS * 4 * q + BS * 4) / 4 = BS * q + BS := by
    have h1 : BS * 4 * q + BS * 4 = 4 * (BS * q + BS) := by ring
    rw [h1, Nat.mul_div_cancel_left _ (show (0 : Nat) < 4 by omega)]
  rw [hlen, hb4, hmod]
  rw [hfact] at hup4
  omega

/-- Witness for C10 with TRACK_BLOCK_SAMPLES = 2, byte cursor 4 (one
committed sample), and a write filling the remainder of the block. -/
theorem commit_assert_unreachable_witness :
    commitSampleCount 4 1 4 ≤ 2 - commitFill 2 1 ∧
    commitFill 2 1 + commitSampleCount 4 1 4 ≤ 2 :=
  commit_assert_unreachable 2 4 1 4 (by decide) (by decide) (by decide)
